import Mathlib

/-! Verification of the heare.ids token codec (file src/heare/ids/init.py).
Python strings are modelled as `List Char`, Python exceptions as
`Except String` carrying the message, the process-wide generation registry as
an explicit `Finset (List Char)` argument, and the wall clock and the random
source as explicit arguments (`now : Rat` and a permutation `perm` of the
alphabet). Timestamps are rationals, which represent every Python float value
exactly. -/

deriving instance DecidableEq for Except

/-- Alphabet `B62_CHARSET` of the source, as a list of characters. -/
def B62_CHARSET : List Char :=
  ("0123456789ABCDEFGHIJKLMNOPQRSTUVWXYZabcdefghijklmnopqrstuvwxyz".toList)

/-- Initial registry `_VALID_GENERATIONS = set('0')` of the source. -/
def _VALID_GENERATIONS : Finset (List Char) := {['0']}

/-- Source `register_generation`: rejects inputs longer than one character,
otherwise adds the generation to the registry (the updated registry is
returned, since the embedding threads the process-wide set explicitly). -/
def register_generation (regs : Finset (List Char)) (generation : List Char) :
    Except String (Finset (List Char)) :=
  if generation.length > 1 then .error ("Generation must be a single character.")
  else .ok (insert generation regs)

/-- Body of the `while n > 0` loop of `_b62_encode`; `fuel` bounds the number
of iterations, and `fuel = n` always suffices because `n` strictly decreases
under division by 62. -/
def _b62_encode_go (fuel n : Nat) : List Char :=
  match fuel with
  | 0 => []
  | f + 1 =>
    if n = 0 then []
    else _b62_encode_go f (n / 62) ++ [B62_CHARSET.getD (n % 62) ' ']

/-- Source `_b62_encode`: base-62 digits of `n`, most significant first, with
the literal string "0" when the loop left `chars` empty (that is, for a
non-positive input). -/
def _b62_encode (n : Nat) : List Char :=
  let chars := _b62_encode_go n n
  if chars = [] then ['0'] else chars

/-- Source `B62_CHARSET.index(x)`: position of a character in the alphabet,
raising `ValueError` (as Python `str.index` does) when the character is
absent. -/
def b62_index (c : Char) : Except String Nat :=
  match List.findIdx? (fun x => x == c) B62_CHARSET with
  | some i => .ok i
  | none => .error ("ValueError: substring not found")

/-- Source `_b62_decode`: positional base-62 value, most significant digit
first. The head digit contributes `index * 62 ^ (length - 1)`, exactly the
`62 ** (l - (i + 1))` term of the source loop. -/
def _b62_decode : List Char → Except String Nat
  | [] => .ok 0
  | c :: rest =>
    match b62_index c, _b62_decode rest with
    | .ok d, .ok v => .ok (d * 62 ^ rest.length + v)
    | .error e, _ => .error e
    | .ok _, .error e => .error e

/-- Python `str.zfill`: left-pad with '0' to the given width (the sign-aware
branch of `zfill` never fires here because encoded digits carry no sign). -/
def zfill (width : Nat) (s : List Char) : List Char :=
  List.replicate (width - s.length) '0' ++ s

/-- Python `int(x)` on a real number: truncation toward zero. -/
def pyTrunc (q : ℚ) : Int := q.num.tdiv q.den

/-- Source `ts = timestamp or datetime.datetime.now().timestamp()`: Python
`or` falls through to the clock both when `timestamp` is `None` and when it
is (falsy) zero. -/
def resolve_ts (timestamp : Option ℚ) (now : ℚ) : ℚ :=
  match timestamp with
  | some t => if t = 0 then now else t
  | none => now

/-- Value of the `entropy` argument, typed `Union[str, int]` in the source;
`other` stands for a value of any third type (such as the float 1.5 used in
the repository tests). -/
inductive PyEntropy where
  | int (k : Int)
  | str (s : List Char)
  | other
deriving DecidableEq

/-- Source `random.sample(B62_CHARSET, k)`: `k` distinct characters of the
62-character alphabet. The randomness is modelled by `perm`, a permutation of
the alphabet supplied by the caller, of which the first `k` characters are
returned. Python raises `ValueError` unless `0 <= k <= len(population)`. -/
def random_sample (perm : List Char) (k : Int) : Except String (List Char) :=
  if 0 ≤ k ∧ k ≤ 62 then .ok (perm.take k.toNat)
  else .error ("Sample larger than population or is negative")

/-- Source `new`: checks the generation against the registry, resolves and
truncates the timestamp, encodes it zero-filled to width 8, resolves the
entropy argument by type, and returns
`prefix + "_" + generation + ts_encoded + entropy_str`. For a negative
truncated timestamp the Python loop body never runs and yields "0", exactly
as encoding `Int.toNat = 0` does here. -/
def new (regs : Finset (List Char)) (p generation : List Char)
    (timestamp : Option ℚ) (entropy : PyEntropy) (now : ℚ) (perm : List Char) :
    Except String (List Char) :=
  if generation ∉ regs then .error ("Generation must be one of _VALID_GENERATIONS")
  else
    let ts_encoded := zfill 8 (_b62_encode (pyTrunc (resolve_ts timestamp now)).toNat)
    match entropy with
    | .int k =>
      match random_sample perm k with
      | .ok entropy_str => .ok (p ++ '_' :: (generation ++ ts_encoded ++ entropy_str))
      | .error e => .error e
    | .str entropy_str => .ok (p ++ '_' :: (generation ++ ts_encoded ++ entropy_str))
    | .other => .error ("Entropy must be either an integer or a string")

/-- Python `token.rfind(c)` for a single-character needle: index of the last
occurrence, `-1` when the character is absent. -/
def rfind (s : List Char) (c : Char) : Int :=
  match s with
  | [] => -1
  | a :: rest =>
    let r := rfind rest c
    if 0 ≤ r then r + 1 else if a = c then 0 else -1

/-- Python slice `s[:i]`, including the negative-index convention. -/
def pySliceTo (s : List Char) (i : Int) : List Char :=
  if i < 0 then s.take ((s.length : Int) + i).toNat else s.take i.toNat

/-- Python slice `s[i:]`, including the negative-index convention. -/
def pySliceFrom (s : List Char) (i : Int) : List Char :=
  if i < 0 then s.drop ((s.length : Int) + i).toNat else s.drop i.toNat

/-- Python `s[i]`: the character at index `i`, raising `IndexError` when out
of range. -/
def pyGetItem (s : List Char) (i : Nat) : Except String Char :=
  match s.get? i with
  | some c => .ok c
  | none => .error ("IndexError: string index out of range")

/-- Source `is_valid`: split at the last '_' via `rfind` (for a token without
'_' the slices are `token[:-1]` and `token[0:]`), then require every prefix
character to be base-62 or '_' and every suffix character to be base-62. -/
def is_valid (token : List Char) : Bool :=
  let last_delimiter := rfind token '_'
  let pre := pySliceTo token last_delimiter
  let suf := pySliceFrom token (last_delimiter + 1)
  pre.all (fun c => decide (c ∈ B62_CHARSET) || decide (c = '_')) &&
    suf.all (fun c => decide (c ∈ B62_CHARSET))

/-- Source `ParsedToken` named tuple; `pfx` is the field called `prefix` in
the source (that word is reserved in Lean). -/
structure ParsedToken where
  pfx : List Char
  generation : Char
  timestamp : ℚ
  entropy : List Char
deriving DecidableEq

/-- Source `parse`: `None` for invalid tokens, otherwise the fields cut out of
the suffix after the last '_'. `suffix[0]` raises `IndexError` on an empty
suffix; the timestamp field is `suffix[1:9]` with leading '0' characters
stripped before decoding, converted to a (rational-valued) float. -/
def parse (token : List Char) : Except String (Option ParsedToken) :=
  if is_valid token = false then .ok none
  else
    let last_delimiter := rfind token '_'
    let pre := pySliceTo token last_delimiter
    let suf := pySliceFrom token (last_delimiter + 1)
    let ts_part := (suf.drop 1).take 8
    match pyGetItem suf 0, _b62_decode (ts_part.dropWhile (fun c => c == '0')) with
    | .ok g, .ok v => .ok (some ⟨pre, g, (v : ℚ), suf.drop 9⟩)
    | .error e, _ => .error e
    | .ok _, .error e => .error e

/-- Suffix of a token after its last '_': `token[token.rfind('_') + 1:]`. -/
def tokenSuffix (token : List Char) : List Char :=
  pySliceFrom token (rfind token '_' + 1)

/-- Source `swap_prefix`: verbatim reuse of everything after the last '_' of
`token`, behind the new prefix and a '_'. -/
def swap_prefix (token np : List Char) : List Char :=
  np ++ '_' :: tokenSuffix token

/-- Exactly the entropy arguments on which `random.sample` raises inside
`new`: integer counts outside the interval from 0 to 62. -/
def sampleRejected (e : PyEntropy) : Bool :=
  match e with
  | .int k => decide (k < 0 ∨ 62 < k)
  | _ => false

/-- Characters produced by indexing the alphabet are alphabet members. -/
lemma getD_B62_mem (r : Nat) (h : r < 62) : B62_CHARSET.getD r ' ' ∈ B62_CHARSET := by
  have hall : ∀ j : Fin 62, B62_CHARSET.getD j.val ' ' ∈ B62_CHARSET := by decide
  exact hall ⟨r, h⟩

/-- Looking up the alphabet character at a position below 62 recovers the
position, because the alphabet has no duplicate characters. -/
lemma b62_index_getD (r : Nat) (h : r < 62) :
    b62_index (B62_CHARSET.getD r ' ') = .ok r := by
  have hall : ∀ j : Fin 62, b62_index (B62_CHARSET.getD j.val ' ') = .ok j.val := by decide
  exact hall ⟨r, h⟩

/-- Appending one digit multiplies the decoded value by 62 and adds the digit. -/
lemma _b62_decode_append_ok {l : List Char} {v : Nat} {c : Char} {d : Nat}
    (hl : _b62_decode l = .ok v) (hc : b62_index c = .ok d) :
    _b62_decode (l ++ [c]) = .ok (v * 62 + d) := by
  induction l generalizing v with
  | nil =>
    simp [_b62_decode] at hl
    simp [_b62_decode, hc, ← hl]
  | cons x xs ih =>
    simp only [_b62_decode] at hl
    cases hbx : b62_index x with
    | error e => rw [hbx] at hl; simp at hl
    | ok dx =>
      cases hxs : _b62_decode xs with
      | error e => rw [hbx, hxs] at hl; simp at hl
      | ok vx =>
        rw [hbx, hxs] at hl
        simp at hl
        subst hl
        simp only [List.cons_append, _b62_decode, hbx, List.append_eq, ih hxs,
          List.length_append, List.length_singleton]
        congr 1
        ring

/-- Decoding inverts the encoding loop whenever the fuel covers the input. -/
lemma _b62_decode_encode_go (fuel : Nat) :
    ∀ n, n ≤ fuel → _b62_decode (_b62_encode_go fuel n) = .ok n := by
  induction fuel with
  | zero =>
    intro n h
    have : n = 0 := Nat.le_zero.mp h
    subst this
    simp [_b62_encode_go, _b62_decode]
  | succ f ih =>
    intro n h
    by_cases h0 : n = 0
    · subst h0; simp [_b62_encode_go, _b62_decode]
    · have hdiv : n / 62 ≤ f := by
        have := Nat.div_lt_self (Nat.pos_of_ne_zero h0) (by decide : 1 < 62)
        omega
      have hidx : b62_index (B62_CHARSET.getD (n % 62) ' ') = .ok (n % 62) :=
        b62_index_getD _ (Nat.mod_lt _ (by decide))
      simp only [_b62_encode_go, if_neg h0]
      rw [_b62_decode_append_ok (ih _ hdiv) hidx]
      congr 1
      omega

/-- The encoding loop emits only alphabet characters. -/
lemma mem_encode_go (fuel : Nat) :
    ∀ n c, c ∈ _b62_encode_go fuel n → c ∈ B62_CHARSET := by
  induction fuel with
  | zero => intro n c h; simp [_b62_encode_go] at h
  | succ f ih =>
    intro n c h
    by_cases h0 : n = 0
    · subst h0; simp [_b62_encode_go] at h
    · simp only [_b62_encode_go, if_neg h0, List.mem_append, List.mem_singleton] at h
      rcases h with h | h
      · exact ih _ _ h
      · subst h; exact getD_B62_mem _ (Nat.mod_lt _ (by decide))

/-- The encoding loop emits at most `k` digits for inputs below `62 ^ k`. -/
lemma encode_go_length (fuel : Nat) :
    ∀ n k, n < 62 ^ k → (_b62_encode_go fuel n).length ≤ k := by
  induction fuel with
  | zero => intro n k _; simp [_b62_encode_go]
  | succ f ih =>
    intro n k h
    by_cases h0 : n = 0
    · subst h0; simp [_b62_encode_go]
    · simp only [_b62_encode_go, if_neg h0, List.length_append, List.length_singleton]
      cases k with
      | zero => simp at h; omega
      | succ j =>
        have hdiv : n / 62 < 62 ^ j := by
          rw [Nat.div_lt_iff_lt_mul (by decide : 0 < 62)]
          calc n < 62 ^ (j + 1) := h
            _ = 62 ^ j * 62 := by ring
        have := ih (n / 62) j hdiv
        omega

/-- For a positive input and positive fuel the loop emits at least one digit. -/
lemma encode_go_ne_nil {fuel n : Nat} (hf : fuel ≠ 0) (h0 : n ≠ 0) :
    _b62_encode_go fuel n ≠ [] := by
  cases fuel with
  | zero => exact absurd rfl hf
  | succ f => simp [_b62_encode_go, h0]

/-- Round trip of the base-62 codec (claim machinery, shared). -/
lemma _b62_decode_encode (n : Nat) : _b62_decode (_b62_encode n) = .ok n := by
  unfold _b62_encode
  by_cases h : _b62_encode_go n n = []
  · have h0 : n = 0 := by
      by_contra h0
      exact encode_go_ne_nil h0 h0 h
    subst h0
    simp [h, _b62_decode]
    decide
  · simp only [h, if_neg h]
    exact _b62_decode_encode_go n n le_rfl

/-- Encoded strings consist of alphabet characters only. -/
lemma mem_encode {n : Nat} {c : Char} (h : c ∈ _b62_encode n) : c ∈ B62_CHARSET := by
  unfold _b62_encode at h
  by_cases h0 : _b62_encode_go n n = []
  · simp [h0] at h
    subst h; decide
  · simp only [h0, if_neg h0] at h
    exact mem_encode_go n n c h

/-- Encoded strings of inputs below `62 ^ k` have at most `k` characters (for
positive `k`, covering the "0" emitted for input zero). -/
lemma _b62_encode_length {n k : Nat} (h : n < 62 ^ k) (hk : 1 ≤ k) :
    (_b62_encode n).length ≤ k := by
  unfold _b62_encode
  by_cases h0 : _b62_encode_go n n = []
  · simp [h0]; omega
  · simp only [h0, if_neg h0]
    exact encode_go_length n n k h

/-- A leading '0' digit does not change the decoded value. -/
lemma _b62_decode_cons_zero (l : List Char) :
    _b62_decode ('0' :: l) = _b62_decode l := by
  have h0 : b62_index '0' = .ok 0 := by decide
  simp only [_b62_decode, h0]
  cases _b62_decode l <;> simp

/-- Stripping leading '0' characters does not change the decoded value. -/
lemma _b62_decode_dropWhile_zero (l : List Char) :
    _b62_decode (l.dropWhile (fun c => c == '0')) = _b62_decode l := by
  induction l with
  | nil => rfl
  | cons x xs ih =>
    by_cases hx : x = '0'
    · subst hx
      rw [List.dropWhile_cons]
      simp only [beq_self_eq_true, if_true]
      rw [ih, _b62_decode_cons_zero]
    · rw [List.dropWhile_cons]
      simp [hx]

/-- Zero padding on the left does not change the decoded value. -/
lemma _b62_decode_replicate_zero (k : Nat) (l : List Char) :
    _b62_decode (List.replicate k '0' ++ l) = _b62_decode l := by
  induction k with
  | zero => simp
  | succ j ih => rw [List.replicate_succ, List.cons_append, _b62_decode_cons_zero, ih]

/-- Decoding undoes zero-filling followed by the parser's '0' stripping. -/
lemma _b62_decode_strip_zfill (w : Nat) (m : Nat) :
    _b62_decode ((zfill w (_b62_encode m)).dropWhile (fun c => c == '0')) = .ok m := by
  rw [_b62_decode_dropWhile_zero]
  unfold zfill
  rw [_b62_decode_replicate_zero]
  exact _b62_decode_encode m

/-- Length of zero-filling: exactly the width when the input is no longer. -/
lemma zfill_length {w : Nat} {s : List Char} (h : s.length ≤ w) :
    (zfill w s).length = w := by
  simp [zfill]
  omega

/-- Characters of a zero-filled string: '0' or a character of the input. -/
lemma mem_zfill {w : Nat} {s : List Char} {c : Char} (h : c ∈ zfill w s) :
    c = '0' ∨ c ∈ s := by
  simp only [zfill, List.mem_append, List.mem_replicate] at h
  tauto

/-- `rfind` misses: Python returns -1 when the character does not occur. -/
lemma rfind_eq_neg_one {s : List Char} {c : Char} (h : c ∉ s) : rfind s c = -1 := by
  induction s with
  | nil => rfl
  | cons a rest ih =>
    have hane : ¬(a = c) := by
      rintro rfl
      exact h (List.mem_cons_self _ _)
    have hrest : c ∉ rest := fun hm => h (List.mem_cons_of_mem _ hm)
    simp [rfind, ih hrest, hane]

/-- `rfind` hits: with no occurrence after it, the marked position is the last
one, so Python returns exactly the length of the part before it. -/
lemma rfind_append_last {a b : List Char} {c : Char} (h : c ∉ b) :
    rfind (a ++ c :: b) c = (a.length : Int) := by
  induction a with
  | nil =>
    simp only [List.nil_append, rfind, rfind_eq_neg_one h]
    norm_num
  | cons x xs ih =>
    simp only [List.cons_append, rfind, List.append_eq, ih]
    rw [if_pos (by positivity : (0:Int) ≤ (xs.length : Int))]
    simp only [List.length_cons]
    push_cast
    ring

/-- Any string containing `c` splits around the last occurrence of `c`. -/
lemma exists_split_last {s : List Char} {c : Char} (h : c ∈ s) :
    ∃ a b, s = a ++ c :: b ∧ c ∉ b := by
  induction s with
  | nil => simp at h
  | cons x xs ih =>
    by_cases hxs : c ∈ xs
    · obtain ⟨a, b, rfl, hb⟩ := ih hxs
      exact ⟨x :: a, b, rfl, hb⟩
    · have hx : x = c := by
        rcases List.mem_cons.mp h with h' | h'
        · exact h'.symm
        · exact absurd h' hxs
      subst hx
      exact ⟨[], xs, rfl, hxs⟩

/-- The candidate prefix of a token whose last '_' separates `a` from `b`. -/
lemma pySliceTo_append_delim {a b : List Char} (h : '_' ∉ b) :
    pySliceTo (a ++ '_' :: b) (rfind (a ++ '_' :: b) '_') = a := by
  rw [rfind_append_last h, pySliceTo,
    if_neg (by omega : ¬((a.length : Int) < 0))]
  simp [List.take_left]

/-- The candidate suffix of a token whose last '_' separates `a` from `b`. -/
lemma pySliceFrom_append_delim {a b : List Char} (h : '_' ∉ b) :
    pySliceFrom (a ++ '_' :: b) (rfind (a ++ '_' :: b) '_' + 1) = b := by
  rw [rfind_append_last h, pySliceFrom,
    if_neg (by omega : ¬((a.length : Int) + 1 < 0))]
  have hsplit : a ++ '_' :: b = (a ++ ['_']) ++ b := by simp
  have hlen : ((a.length : Int) + 1).toNat = (a ++ ['_']).length := by
    simp [List.length_append]
  rw [hsplit, hlen, List.drop_left]

/-- Without any '_' the candidate prefix is the token without its last
character: `rfind` returns -1 and the Python slice `token[:-1]` drops one. -/
lemma pySliceTo_no_delim {token : List Char} (h : '_' ∉ token) :
    pySliceTo token (rfind token '_') = token.take (token.length - 1) := by
  rw [rfind_eq_neg_one h, pySliceTo, if_pos (by norm_num : (-1 : Int) < 0)]
  congr 1
  omega

/-- Without any '_' the candidate suffix is the whole token: `rfind` returns
-1 and the Python slice `token[0:]` keeps everything. -/
lemma pySliceFrom_no_delim {token : List Char} (h : '_' ∉ token) :
    pySliceFrom token (rfind token '_' + 1) = token := by
  rw [rfind_eq_neg_one h]
  norm_num [pySliceFrom]

/-- Structural characterisation of the validator: a token passes exactly when
every one of its characters is a base-62 character or '_'. -/
lemma is_valid_iff (token : List Char) :
    is_valid token = true ↔ ∀ c ∈ token, c ∈ B62_CHARSET ∨ c = '_' := by
  by_cases hmem : '_' ∈ token
  · obtain ⟨a, b, rfl, hb⟩ := exists_split_last hmem
    simp only [is_valid, pySliceTo_append_delim hb, pySliceFrom_append_delim hb,
      Bool.and_eq_true, List.all_eq_true, Bool.or_eq_true, decide_eq_true_eq]
    constructor
    · rintro ⟨ha, hbq⟩ c hc
      rcases List.mem_append.mp hc with h | h
      · exact ha c h
      · rcases List.mem_cons.mp h with h | h
        · exact Or.inr h
        · exact Or.inl (hbq c h)
    · intro hall
      refine ⟨fun c hc => hall c (List.mem_append.mpr (Or.inl hc)), fun c hc => ?_⟩
      have hcmem := hall c (List.mem_append.mpr (Or.inr (List.mem_cons.mpr (Or.inr hc))))
      have hne : c ≠ '_' := fun e => hb (e ▸ hc)
      tauto
  · simp only [is_valid, pySliceTo_no_delim hmem, pySliceFrom_no_delim hmem,
      Bool.and_eq_true, List.all_eq_true, Bool.or_eq_true, decide_eq_true_eq]
    constructor
    · rintro ⟨_, hall⟩ c hc
      exact Or.inl (hall c hc)
    · intro hall
      refine ⟨fun c hc => Or.inl ?_, fun c hc => ?_⟩
      · have hc' : c ∈ token := List.take_subset _ _ hc
        have hne : c ≠ '_' := fun e => hmem (e ▸ hc')
        have := hall c hc'
        tauto
      · have hne : c ≠ '_' := fun e => hmem (e ▸ hc)
        have := hall c hc
        tauto

/-- The underscore is not an alphabet character. -/
lemma underscore_not_b62 : '_' ∉ B62_CHARSET := by decide

/-- Python truncation agrees with the floor on non-negative rationals. -/
lemma pyTrunc_eq_floor {q : ℚ} (h : 0 ≤ q) : pyTrunc q = ⌊q⌋ := by
  rw [Rat.floor_def]
  exact Int.tdiv_eq_ediv (Rat.num_nonneg.mpr h) (Int.ofNat_nonneg _)

/-- Python truncation preserves non-negativity. -/
lemma pyTrunc_nonneg {q : ℚ} (h : 0 ≤ q) : 0 ≤ pyTrunc q :=
  Int.tdiv_nonneg (Rat.num_nonneg.mpr h) (Int.ofNat_nonneg _)

/-- A timestamp below `62 ^ 8` still fits 8 digits after truncation. -/
lemma pyTrunc_toNat_lt {q : ℚ} (hq : 0 ≤ q) (h : q < ((62 : ℚ) ^ 8)) :
    (pyTrunc q).toNat < 62 ^ 8 := by
  have hfl : pyTrunc q = ⌊q⌋ := pyTrunc_eq_floor hq
  have h2 : ⌊q⌋ < ((62 ^ 8 : ℕ) : ℤ) := Int.floor_lt.mpr (by push_cast; exact h)
  rw [hfl, Int.toNat_lt (Int.floor_nonneg.mpr hq)]
  exact h2

/-- Characters of the zero-filled encoded timestamp are alphabet characters. -/
lemma ts_encoded_mem {m : Nat} {c : Char} (h : c ∈ zfill 8 (_b62_encode m)) :
    c ∈ B62_CHARSET := by
  rcases mem_zfill h with h | h
  · subst h; decide
  · exact mem_encode h

/-- Characters drawn from a permutation of the alphabet are alphabet
characters. -/
lemma perm_take_mem {perm : List Char} (hp : perm.Perm B62_CHARSET) {k : Nat}
    {c : Char} (h : c ∈ perm.take k) : c ∈ B62_CHARSET :=
  hp.mem_iff.mp (List.take_subset _ _ h)

/-- Shape of a successful build with literal string entropy. -/
lemma new_ok_str {regs : Finset (List Char)} {p gen s : List Char}
    {ts : Option ℚ} {now : ℚ} {perm : List Char} (hg : gen ∈ regs) :
    new regs p gen ts (.str s) now perm =
      .ok (p ++ '_' ::
        (gen ++ zfill 8 (_b62_encode (pyTrunc (resolve_ts ts now)).toNat) ++ s)) := by
  simp [new, hg]

/-- Shape of a successful build with an integer entropy count. -/
lemma new_ok_int {regs : Finset (List Char)} {gen : List Char} {k : Int}
    (p : List Char) (ts : Option ℚ) (now : ℚ) (perm : List Char) (hg : gen ∈ regs)
    (h0 : 0 ≤ k) (h62 : k ≤ 62) :
    new regs p gen ts (.int k) now perm =
      .ok (p ++ '_' ::
        (gen ++ zfill 8 (_b62_encode (pyTrunc (resolve_ts ts now)).toNat) ++
          perm.take k.toNat)) := by
  simp [new, hg, random_sample, h0, h62]

/-- Looking up an alphabet character never raises. -/
lemma b62_index_isOk_of_mem : ∀ c ∈ B62_CHARSET, (b62_index c).isOk = true := by decide

/-- Decoding a string of alphabet characters never raises. -/
lemma _b62_decode_isOk {l : List Char} (h : ∀ c ∈ l, c ∈ B62_CHARSET) :
    ∃ v, _b62_decode l = .ok v := by
  induction l with
  | nil => exact ⟨0, rfl⟩
  | cons c rest ih =>
    obtain ⟨v, hv⟩ := ih fun x hx => h x (List.mem_cons_of_mem _ hx)
    have hc := b62_index_isOk_of_mem c (h c (List.mem_cons_self _ _))
    cases hbc : b62_index c with
    | error e => rw [hbc] at hc; simp [Except.isOk, Except.toBool] at hc
    | ok d => exact ⟨d * 62 ^ rest.length + v, by simp [_b62_decode, hbc, hv]⟩

/-- Parsing a token of the exact shape the builder produces recovers the
prefix, the generation character, the truncated timestamp and the entropy. -/
lemma parse_new_shape {a : List Char} {g : Char} {m : Nat} {s : List Char}
    (ha : ∀ c ∈ a, c ∈ B62_CHARSET ∨ c = '_') (hg : g ∈ B62_CHARSET)
    (hs : ∀ c ∈ s, c ∈ B62_CHARSET) (hm : m < 62 ^ 8) :
    parse (a ++ '_' :: (g :: (zfill 8 (_b62_encode m) ++ s))) =
      .ok (some ⟨a, g, (m : ℚ), s⟩) := by
  have hts8len : (zfill 8 (_b62_encode m)).length = 8 :=
    zfill_length (_b62_encode_length hm (by norm_num))
  have hb : '_' ∉ g :: (zfill 8 (_b62_encode m) ++ s) := by
    intro hc
    rcases List.mem_cons.mp hc with hc | hc
    · exact underscore_not_b62 (hc ▸ hg)
    · rcases List.mem_append.mp hc with hc | hc
      · exact underscore_not_b62 (ts_encoded_mem hc)
      · exact underscore_not_b62 (hs _ hc)
  have hvalid : is_valid (a ++ '_' :: (g :: (zfill 8 (_b62_encode m) ++ s))) = true := by
    rw [is_valid_iff]
    intro c hc
    rcases List.mem_append.mp hc with hc | hc
    · exact ha c hc
    · rcases List.mem_cons.mp hc with hc | hc
      · exact Or.inr hc
      · rcases List.mem_cons.mp hc with hc | hc
        · exact Or.inl (hc ▸ hg)
        · rcases List.mem_append.mp hc with hc | hc
          · exact Or.inl (ts_encoded_mem hc)
          · exact Or.inl (hs _ hc)
  have hcond : (is_valid (a ++ '_' :: (g :: (zfill 8 (_b62_encode m) ++ s))) = false) = False := by
    simp [hvalid]
  have hget : pyGetItem (g :: (zfill 8 (_b62_encode m) ++ s)) 0 = .ok g := rfl
  have hdrop1 : (g :: (zfill 8 (_b62_encode m) ++ s)).drop 1 =
      zfill 8 (_b62_encode m) ++ s := rfl
  have htake : (zfill 8 (_b62_encode m) ++ s).take 8 = zfill 8 (_b62_encode m) := by
    have h := List.take_left (zfill 8 (_b62_encode m)) s
    rwa [hts8len] at h
  have hdrop9 : (g :: (zfill 8 (_b62_encode m) ++ s)).drop 9 = s := by
    rw [show (9 : Nat) = 8 + 1 from rfl, List.drop_succ_cons]
    have h := List.drop_left (zfill 8 (_b62_encode m)) s
    rwa [hts8len] at h
  simp only [parse, hcond, if_false, pySliceTo_append_delim hb,
    pySliceFrom_append_delim hb, hget, hdrop1, htake, hdrop9, _b62_decode_strip_zfill]


/-- The alphabet has no duplicate characters. -/
lemma b62_nodup : B62_CHARSET.Nodup := by decide

/-- A truncated timestamp below `62 ^ 8` (as an integer) is below `62 ^ 8`
after clamping to a natural number. -/
lemma pyTrunc_toNat_lt_of_lt {q : ℚ} (h : pyTrunc q < (62 : ℤ) ^ 8) :
    (pyTrunc q).toNat < 62 ^ 8 := by
  have hc : (62 : ℤ) ^ 8 = 218340105584896 := by norm_num
  have hcn : (62 : ℕ) ^ 8 = 218340105584896 := by norm_num
  omega

/-- Parsing a non-empty valid token without any '_': the suffix is the whole
token, the first character becomes the generation, and the recorded prefix is
the token without its last character (the Python slice `token[:-1]`). -/
lemma parse_no_underscore {token : List Char} (h : '_' ∉ token) (hne : token ≠ [])
    (hvalid : is_valid token = true) :
    (parse token).map (Option.map ParsedToken.pfx) =
      .ok (some (token.take (token.length - 1))) := by
  obtain ⟨c, rest, rfl⟩ := List.exists_cons_of_ne_nil hne
  have hchars : ∀ x ∈ c :: rest, x ∈ B62_CHARSET := by
    intro x hx
    rcases (is_valid_iff _).mp hvalid x hx with h' | h'
    · exact h'
    · exact absurd (h' ▸ hx) h
  have hdec : ∃ v,
      _b62_decode ((((c :: rest).drop 1).take 8).dropWhile (fun x => x == '0')) =
        .ok v := by
    apply _b62_decode_isOk
    intro x hx
    apply hchars
    have h1 : x ∈ ((c :: rest).drop 1).take 8 :=
      (List.dropWhile_sublist _).subset hx
    have h2 : x ∈ (c :: rest).drop 1 := List.take_subset _ _ h1
    exact List.drop_subset _ _ h2
  obtain ⟨v, hv⟩ := hdec
  have hcond : (is_valid (c :: rest) = false) = False := by simp [hvalid]
  have hget : pyGetItem (c :: rest) 0 = .ok c := rfl
  simp only [parse, hcond, if_false, pySliceTo_no_delim h, pySliceFrom_no_delim h,
    hget, hv, Except.map, Option.map]

/-- C1: for every non-negative integer `n`, decoding the encoding of `n`
yields `n` back, and encoding zero yields the one-character string "0". -/
theorem c1_b62_roundtrip (n : Nat) :
    _b62_decode (_b62_encode n) = .ok n ∧ _b62_encode 0 = ['0'] :=
  ⟨_b62_decode_encode n, rfl⟩

/-- C2: the claim that `parse` never raises fails in the code: the token "_"
is accepted by the validator, yet `parse` evaluates `suffix[0]` on the empty
suffix and raises `IndexError` instead of returning a value. -/
theorem c2_parse_raises_on_underscore_token :
    is_valid ['_'] = true ∧
      parse ['_'] = .error ("IndexError: string index out of range") :=
  ⟨by decide, by decide⟩

/-- C7: registration fails exactly on inputs longer than one character,
otherwise inserts the generation (including the empty string), and
re-registering a present generation returns the registry unchanged. -/
theorem c7_register_generation_spec (regs : Finset (List Char)) (gen : List Char) :
    ((register_generation regs gen).isOk = false ↔ 1 < gen.length) ∧
    (gen.length ≤ 1 → register_generation regs gen = .ok (insert gen regs)) ∧
    (gen ∈ regs → gen.length ≤ 1 → register_generation regs gen = .ok regs) := by
  refine ⟨?_, ?_, ?_⟩
  · by_cases h : 1 < gen.length <;>
      simp [register_generation, h, Except.isOk, Except.toBool]
  · intro h
    rw [register_generation, if_neg (by omega)]
  · intro hmem h
    rw [register_generation, if_neg (by omega), Finset.insert_eq_self.mpr hmem]

/-- Witness for C7 at concrete inputs: "12" is rejected, "4" is inserted,
re-registering "0" is a no-op, and the empty string is accepted. -/
theorem c7_witness :
    (register_generation _VALID_GENERATIONS ("12".toList)).isOk = false ∧
    register_generation _VALID_GENERATIONS ['4'] = .ok (insert ['4'] _VALID_GENERATIONS) ∧
    register_generation _VALID_GENERATIONS ['0'] = .ok _VALID_GENERATIONS ∧
    register_generation _VALID_GENERATIONS [] = .ok (insert [] _VALID_GENERATIONS) :=
  ⟨(c7_register_generation_spec _ _).1.mpr (by decide),
    (c7_register_generation_spec _ _).2.1 (by decide),
    (c7_register_generation_spec _ _).2.2 (by decide) (by decide),
    (c7_register_generation_spec _ _).2.1 (by decide)⟩

/-- C8: on any token containing '_', prefix swapping returns the new prefix,
an underscore, and verbatim everything after the last '_' of the token. -/
theorem c8_swap_prefix_spec (a b np : List Char) (h : '_' ∉ b) :
    swap_prefix (a ++ '_' :: b) np = np ++ '_' :: b := by
  simp only [ swap_prefix, tokenSuffix, pySliceFrom_append_delim h]

/-- Witness for C8 at the concrete token of the specification. -/
theorem c8_witness :
    swap_prefix ("oldprefix_0123456789".toList) ("newprefix".toList) =
      ("newprefix_0123456789".toList) := by
  have heq : ("oldprefix".toList : List Char) ++ '_' :: ("0123456789".toList) =
      ("oldprefix_0123456789".toList) := by decide
  have heq2 : ("newprefix".toList : List Char) ++ '_' :: ("0123456789".toList) =
      ("newprefix_0123456789".toList) := by decide
  rw [← heq, ← heq2]
  exact c8_swap_prefix_spec ("oldprefix".toList) ("0123456789".toList)
    ("newprefix".toList) (by decide)

/-- C10: the validator accepts a token exactly when every character is a
base-62 character or '_'; in particular the empty token and "_" are valid. -/
theorem c10_is_valid_characterisation (token : List Char) :
    (is_valid token = true ↔ ∀ c ∈ token, c ∈ B62_CHARSET ∨ c = '_') ∧
    is_valid [] = true ∧ is_valid ['_'] = true :=
  ⟨is_valid_iff token, by decide, by decide⟩

/-- Witness for C10 at concrete tokens on both sides of the equivalence. -/
theorem c10_witness :
    is_valid ("Ab_9".toList) = true ∧ is_valid ("a-b".toList) = false := by
  constructor
  · exact (c10_is_valid_characterisation _).1.mpr (by decide)
  · cases hb : is_valid ("a-b".toList) with
    | false => rfl
    | true =>
      exact absurd ((c10_is_valid_characterisation ("a-b".toList)).1.mp hb) (by decide)

/-- C3 is refuted at two concrete timestamps: at `t = 0` (falsy in Python) the
builder substitutes the wall clock, so the parsed timestamp is the clock value
and not `float(int(0))`; at `t = 62 ^ 8` the encoding is nine digits wide, so
the parsed timestamp and entropy are cut at the wrong places. -/
theorem c3_counterexample :
    (Except.bind
        (new _VALID_GENERATIONS ['p'] ['0'] (some 0) (PyEntropy.str []) 1 B62_CHARSET)
        parse = .ok (some ⟨['p'], '0', (1 : ℚ), []⟩) ∧
      (1 : ℚ) ≠ ((pyTrunc 0 : ℤ) : ℚ)) ∧
    (Except.bind
        (new _VALID_GENERATIONS ['p'] ['0'] (some 218340105584896) (PyEntropy.str [])
          1 B62_CHARSET)
        parse = .ok (some ⟨['p'], '0', (3521614606208 : ℚ), ['0']⟩) ∧
      (3521614606208 : ℚ) ≠ ((pyTrunc 218340105584896 : ℤ) : ℚ) ∧
      (['0'] : List Char) ≠ []) :=
  ⟨⟨by decide, by decide⟩, ⟨by decide, by decide, by decide⟩⟩

/-- C3 (amended): for a base-62 prefix, a registered base-62 generation
character, a literal base-62 entropy string, and a provided timestamp that is
positive and truncates below `62 ^ 8`, building then parsing recovers the
prefix, the generation, the truncated timestamp and the entropy verbatim. -/
theorem c3_parse_of_new (regs : Finset (List Char)) (p s : List Char) (g : Char)
    (t now : ℚ) (perm : List Char)
    (hp : ∀ c ∈ p, c ∈ B62_CHARSET) (hreg : [g] ∈ regs) (hg : g ∈ B62_CHARSET)
    (hs : ∀ c ∈ s, c ∈ B62_CHARSET) (ht0 : 0 < t)
    (ht8 : pyTrunc t < (62 : ℤ) ^ 8) :
    Except.bind (new regs p [g] (some t) (PyEntropy.str s) now perm) parse =
      .ok (some ⟨p, g, ((pyTrunc t : ℤ) : ℚ), s⟩) := by
  have hres : resolve_ts (some t) now = t := by
    simp [resolve_ts, ne_of_gt ht0]
  have hm : (pyTrunc t).toNat < 62 ^ 8 := pyTrunc_toNat_lt_of_lt ht8
  have happ : ([g] : List Char) ++ zfill 8 (_b62_encode (pyTrunc t).toNat) ++ s =
      g :: (zfill 8 (_b62_encode (pyTrunc t).toNat) ++ s) := by simp
  rw [new_ok_str hreg, hres, happ]
  show parse _ = _
  rw [parse_new_shape (fun c hc => Or.inl (hp c hc)) hg hs hm]
  have hnn : (((pyTrunc t).toNat : ℤ) : ℚ) = ((pyTrunc t : ℤ) : ℚ) := by
    rw [Int.toNat_of_nonneg (pyTrunc_nonneg (le_of_lt ht0))]
  have hcast : (((pyTrunc t).toNat : ℕ) : ℚ) = ((pyTrunc t : ℤ) : ℚ) := by
    rw [← hnn]
    push_cast
    rfl
  rw [hcast]

/-- Witness for C3 at a concrete positive timestamp. -/
theorem c3_witness :
    Except.bind
        (new _VALID_GENERATIONS ['p'] ['0'] (some 3) (PyEntropy.str ['a']) 7 B62_CHARSET)
        parse = .ok (some ⟨['p'], '0', ((pyTrunc 3 : ℤ) : ℚ), ['a']⟩) :=
  c3_parse_of_new _VALID_GENERATIONS ['p'] ['a'] '0' 3 7 B62_CHARSET
    (by decide) (by decide) (by decide) (by decide) (by decide) (by decide)

/-- C4 is refuted by registering the single character "!" (which registration
permits): the builder then accepts it, but the built token carries '!' in its
suffix and the validator rejects it. -/
theorem c4_counterexample :
    register_generation _VALID_GENERATIONS ['!'] = .ok (insert ['!'] _VALID_GENERATIONS) ∧
    new (insert ['!'] _VALID_GENERATIONS) ['p'] ['!'] none (PyEntropy.int 10) 1
        B62_CHARSET = .ok ("p_!000000010123456789".toList) ∧
    is_valid ("p_!000000010123456789".toList) = false :=
  ⟨by decide, by decide, by decide⟩

/-- C4 (amended): for every prefix made of base-62 characters and '_', and
every registered generation whose characters are all base-62 or '_', a token
built with the default integer entropy count passes the validator. -/
theorem c4_new_is_valid (regs : Finset (List Char)) (p gen : List Char)
    (now : ℚ) (perm : List Char)
    (hp : ∀ c ∈ p, c ∈ B62_CHARSET ∨ c = '_') (hreg : gen ∈ regs)
    (hgen : ∀ c ∈ gen, c ∈ B62_CHARSET ∨ c = '_') (hperm : perm.Perm B62_CHARSET) :
    (new regs p gen none (PyEntropy.int 10) now perm).map is_valid = .ok true := by
  rw [new_ok_int p none now perm hreg (by norm_num) (by norm_num)]
  have hvalid : is_valid (p ++ '_' ::
      (gen ++ zfill 8 (_b62_encode (pyTrunc (resolve_ts none now)).toNat) ++
        perm.take (Int.toNat 10))) = true := by
    rw [is_valid_iff]
    intro c hc
    rcases List.mem_append.mp hc with hc | hc
    · exact hp c hc
    · rcases List.mem_cons.mp hc with hc | hc
      · exact Or.inr hc
      · rcases List.mem_append.mp hc with hc | hc
        · rcases List.mem_append.mp hc with hc | hc
          · exact hgen c hc
          · exact Or.inl (ts_encoded_mem hc)
        · exact Or.inl (perm_take_mem hperm hc)
  simp only [Except.map, hvalid]

/-- Witness for C4 at a concrete prefix containing '_' and the initial
registry. -/
theorem c4_witness :
    (new _VALID_GENERATIONS ("p_q".toList) ['0'] none (PyEntropy.int 10) 5
        B62_CHARSET).map is_valid = .ok true :=
  c4_new_is_valid _VALID_GENERATIONS ("p_q".toList) ['0'] 5 B62_CHARSET
    (by decide) (by decide) (by decide) (List.Perm.refl _)

/-- C5 is refuted by the integer entropy count 63: the generation is
registered and the entropy argument is an integer, yet `new` raises because
`random.sample` rejects counts above the population size. -/
theorem c5_counterexample :
    ['0'] ∈ _VALID_GENERATIONS ∧
    new _VALID_GENERATIONS ['p'] ['0'] (some 1) (PyEntropy.int 63) 1 B62_CHARSET =
      .error ("Sample larger than population or is negative") :=
  ⟨by decide, by decide⟩

/-- C5 (amended): `new` raises exactly when the generation is unregistered,
the entropy argument has a third type, or the entropy argument is an integer
count outside the range from 0 to 62; on every other input it returns a
token. -/
theorem c5_new_error_iff (regs : Finset (List Char)) (p gen : List Char)
    (ts : Option ℚ) (ent : PyEntropy) (now : ℚ) (perm : List Char) :
    (new regs p gen ts ent now perm).isOk = false ↔
      gen ∉ regs ∨ ent = PyEntropy.other ∨ sampleRejected ent = true := by
  by_cases hreg : gen ∈ regs
  · cases ent with
    | int k =>
      by_cases hk : 0 ≤ k ∧ k ≤ 62
      · rw [new_ok_int p ts now perm hreg hk.1 hk.2]
        simp [Except.isOk, Except.toBool, hreg, sampleRejected]
        omega
      · have herr : new regs p gen ts (PyEntropy.int k) now perm =
            .error ("Sample larger than population or is negative") := by
          simp [new, hreg, random_sample, hk]
        rw [herr]
        simp [Except.isOk, Except.toBool, hreg, sampleRejected]
        omega
    | str s =>
      rw [new_ok_str hreg]
      simp [Except.isOk, Except.toBool, hreg, sampleRejected]
    | other =>
      simp [new, hreg, Except.isOk, Except.toBool, sampleRejected]
  · simp [new, hreg, Except.isOk, Except.toBool]

/-- Witness for C5: a registered generation with an in-range integer count
does not raise. -/
theorem c5_witness :
    (new _VALID_GENERATIONS ['p'] ['0'] (some 1) (PyEntropy.int 10) 1
      B62_CHARSET).isOk = true := by
  cases hb : (new _VALID_GENERATIONS ['p'] ['0'] (some 1) (PyEntropy.int 10) 1
      B62_CHARSET).isOk with
  | true => rfl
  | false =>
    exact absurd ((c5_new_error_iff _VALID_GENERATIONS ['p'] ['0'] (some 1)
      (PyEntropy.int 10) 1 B62_CHARSET).mp hb) (by decide)

/-- C6 is refuted at the token "abc": with no '_' the split yields the prefix
"ab" (the slice `token[:-1]`) and the suffix "abc" (the whole token), so the
parsed prefix is not the whole string and the suffix is not empty. -/
theorem c6_counterexample :
    pySliceTo ("abc".toList) (rfind ("abc".toList) '_') = ['a', 'b'] ∧
    pySliceFrom ("abc".toList) (rfind ("abc".toList) '_' + 1) = ("abc".toList) ∧
    is_valid ("abc".toList) = true ∧
    parse ("abc".toList) = .ok (some ⟨['a', 'b'], 'a', 2332, []⟩) ∧
    (['a', 'b'] : List Char) ≠ ("abc".toList) ∧ ("abc".toList : List Char) ≠ [] :=
  ⟨by decide, by decide, by decide, by decide, by decide, by decide⟩

/-- C6 (amended): on a token with no '_' the split yields the token without
its last character as prefix and the whole token as suffix; consequently for
a non-empty such token accepted by the validator, parsing records the token
without its last character as the prefix. -/
theorem c6_no_underscore_split (token : List Char) (h : '_' ∉ token) :
    pySliceTo token (rfind token '_') = token.take (token.length - 1) ∧
    pySliceFrom token (rfind token '_' + 1) = token ∧
    (token ≠ [] → is_valid token = true →
      (parse token).map (Option.map ParsedToken.pfx) =
        .ok (some (token.take (token.length - 1)))) :=
  ⟨pySliceTo_no_delim h, pySliceFrom_no_delim h,
    fun hne hv => parse_no_underscore h hne hv⟩

/-- Witness for C6 at the concrete token "xy". -/
theorem c6_witness :
    pySliceTo ("xy".toList) (rfind ("xy".toList) '_') =
      ("xy".toList).take (("xy".toList).length - 1) ∧
    pySliceFrom ("xy".toList) (rfind ("xy".toList) '_' + 1) = ("xy".toList) ∧
    (parse ("xy".toList)).map (Option.map ParsedToken.pfx) =
      .ok (some (("xy".toList).take (("xy".toList).length - 1))) := by
  have h := c6_no_underscore_split ("xy".toList) (by decide)
  exact ⟨h.1, h.2.1, h.2.2 (by decide) (by decide)⟩

/-- C9 is refuted twice: at a timestamp of `62 ^ 8` seconds the encoded
timestamp is nine digits wide and the characters after position 9 of the
suffix include a timestamp digit (length 6, not 5); and for the registrable
generation "_" the suffix starts at the timestamp and the characters after
position 9 lose one entropy character (length 4, not 5). -/
theorem c9_counterexample :
    (new _VALID_GENERATIONS ['p'] ['0'] (some 218340105584896) (PyEntropy.int 5) 1
        B62_CHARSET = .ok ("p_010000000001234".toList) ∧
      (tokenSuffix ("p_010000000001234".toList)).drop 9 = ("001234".toList) ∧
      (("001234".toList) : List Char).length ≠ Int.toNat 5) ∧
    (register_generation _VALID_GENERATIONS ['_'] =
        .ok (insert ['_'] _VALID_GENERATIONS) ∧
      new (insert ['_'] _VALID_GENERATIONS) ['p'] ['_'] (some 1) (PyEntropy.int 5) 1
        B62_CHARSET = .ok ("p__0000000101234".toList) ∧
      (tokenSuffix ("p__0000000101234".toList)).drop 9 = ("1234".toList) ∧
      (("1234".toList) : List Char).length ≠ Int.toNat 5) :=
  ⟨⟨by decide, by decide, by decide⟩, ⟨by decide, by decide, by decide⟩⟩

/-- C9 (amended): for an integer entropy count between 0 and 62, a registered
single-character generation other than '_', and a resolved timestamp that
truncates below `62 ^ 8`, the build succeeds and the characters of the token
suffix after position 9 number exactly the count, all belong to the alphabet,
and contain no repeats. -/
theorem c9_entropy_segment (regs : Finset (List Char)) (p : List Char) (g : Char)
    (ts : Option ℚ) (now : ℚ) (perm : List Char) (N : Int)
    (hN0 : 0 ≤ N) (hN62 : N ≤ 62) (hreg : [g] ∈ regs) (hg : g ≠ '_')
    (hperm : perm.Perm B62_CHARSET)
    (hts : pyTrunc (resolve_ts ts now) < (62 : ℤ) ^ 8) :
    (new regs p [g] ts (PyEntropy.int N) now perm).isOk = true ∧
    ∀ tok, new regs p [g] ts (PyEntropy.int N) now perm = .ok tok →
      ((tokenSuffix tok).drop 9).length = N.toNat ∧
      (∀ c ∈ (tokenSuffix tok).drop 9, c ∈ B62_CHARSET) ∧
      ((tokenSuffix tok).drop 9).Nodup := by
  have hnew := new_ok_int p ts now perm hreg hN0 hN62
  refine ⟨by rw [hnew]; rfl, ?_⟩
  intro tok htok
  rw [hnew] at htok
  have htok' : tok = p ++ '_' ::
      ([g] ++ zfill 8 (_b62_encode (pyTrunc (resolve_ts ts now)).toNat) ++
        perm.take N.toNat) := by
    cases htok
    rfl
  subst htok'
  have hts8len : (zfill 8 (_b62_encode (pyTrunc (resolve_ts ts now)).toNat)).length = 8 :=
    zfill_length (_b62_encode_length (pyTrunc_toNat_lt_of_lt hts) (by norm_num))
  have hb : '_' ∉ g ::
      (zfill 8 (_b62_encode (pyTrunc (resolve_ts ts now)).toNat) ++ perm.take N.toNat) := by
    intro hc
    rcases List.mem_cons.mp hc with hc | hc
    · exact hg hc.symm
    · rcases List.mem_append.mp hc with hc | hc
      · exact underscore_not_b62 (ts_encoded_mem hc)
      · exact underscore_not_b62 (perm_take_mem hperm hc)
  have happ : ([g] : List Char) ++
      zfill 8 (_b62_encode (pyTrunc (resolve_ts ts now)).toNat) ++ perm.take N.toNat =
      g :: (zfill 8 (_b62_encode (pyTrunc (resolve_ts ts now)).toNat) ++
        perm.take N.toNat) := by simp
  rw [happ]
  have hsuf : tokenSuffix (p ++ '_' ::
      (g :: (zfill 8 (_b62_encode (pyTrunc (resolve_ts ts now)).toNat) ++
        perm.take N.toNat))) =
      g :: (zfill 8 (_b62_encode (pyTrunc (resolve_ts ts now)).toNat) ++
        perm.take N.toNat) := by
    rw [tokenSuffix]
    exact pySliceFrom_append_delim hb
  rw [hsuf]
  have hdrop9 : (g :: (zfill 8 (_b62_encode (pyTrunc (resolve_ts ts now)).toNat) ++
      perm.take N.toNat)).drop 9 = perm.take N.toNat := by
    rw [show (9 : Nat) = 8 + 1 from rfl, List.drop_succ_cons]
    have hdl := List.drop_left
      (zfill 8 (_b62_encode (pyTrunc (resolve_ts ts now)).toNat)) (perm.take N.toNat)
    rwa [hts8len] at hdl
  rw [hdrop9]
  have hpermlen : perm.length = 62 := hperm.length_eq
  refine ⟨?_, fun c hc => perm_take_mem hperm hc, ?_⟩
  · rw [List.length_take, hpermlen]
    omega
  · exact List.Nodup.sublist (List.take_sublist _ _) (hperm.nodup_iff.mpr b62_nodup)

/-- Witness for C9 at a concrete count of 5 and timestamp 3. -/
theorem c9_witness :
    ((tokenSuffix ("p_00000000301234".toList)).drop 9).length = Int.toNat 5 ∧
    (∀ c ∈ (tokenSuffix ("p_00000000301234".toList)).drop 9, c ∈ B62_CHARSET) ∧
    ((tokenSuffix ("p_00000000301234".toList)).drop 9).Nodup :=
  (c9_entropy_segment _VALID_GENERATIONS ['p'] '0' (some 3) 1 B62_CHARSET 5
    (by decide) (by decide) (by decide) (by decide) (List.Perm.refl _)
    (by decide)).2 _ (by decide)
